import Mathlib

/-!
Verification of the document edit and undo engine of `src/pdf_tool.py`,
a PyQt PDF page editor.  Python strings are modelled as `List Char`,
documents as lists of opaque page handles, the bounded undo stack as a
list of snapshots, and the fallible page-range reader as an `Except`
value.  Each definition below mirrors one Python function of the source
file; the theorems settle the specification claims C1-C10.
-/

deriving instance DecidableEq for Except

/-- Characters removed by Python `str.strip()` (the ASCII fragment;
exotic unicode whitespace is not modelled, no claim depends on it). -/
def pySpace (c : Char) : Bool :=
  c = ' ' || c = '\t' || c = '\n' || c = '\r' || c = '\x0b' || c = '\x0c'

/-- Python `s.strip()` on a character-list string. -/
def pyStrip (s : List Char) : List Char :=
  ((s.dropWhile pySpace).reverse.dropWhile pySpace).reverse

/-- Python `s.split(sep)` for a one-character separator: empty pieces are
kept, so splitting `","` gives `["", ""]`. -/
def splitOnChar (sep : Char) : List Char → List (List Char)
  | [] => [[]]
  | c :: cs =>
    match splitOnChar sep cs with
    | [] => [[c]]
    | p :: ps => if c = sep then [] :: p :: ps else (c :: p) :: ps

/-- Numeric value of a digit string, most significant digit first. -/
def tokVal (s : List Char) : ℕ :=
  s.foldl (fun a c => 10 * a + (c.toNat - 48)) 0

/-- True when the token is one or more decimal digits: the shape
`INT := decimal digits` of the page-range grammar. -/
def isIntTok (s : List Char) : Bool :=
  !s.isEmpty && s.all Char.isDigit

/-- Value of an unsigned digit string, `none` when not all digits. -/
def digitsVal (s : List Char) : Option ℕ :=
  if isIntTok s then some (tokVal s) else none

/-- Python `int(s)` on the space-free tokens produced by the range
splitter: an optional sign followed by decimal digits.  (Underscore
digit separators and non-space whitespace, which Python `int` also
accepts, are not modelled; no claim depends on them.) -/
def pyInt? (s : List Char) : Option Int :=
  match s with
  | [] => none
  | c :: cs =>
    if c = '+' then (digitsVal cs).map Int.ofNat
    else if c = '-' then (digitsVal cs).map (fun n => -(Int.ofNat n))
    else (digitsVal (c :: cs)).map Int.ofNat

/-- The accumulated page selection.  Python keeps a `set` of ints and
sorts it once at the end; we keep the strictly sorted duplicate-free
list throughout, so `set.add` becomes ordered insertion. -/
def insertPage (x : ℕ) : List ℕ → List ℕ
  | [] => [x]
  | y :: ys =>
    if x < y then x :: y :: ys
    else if x = y then y :: ys
    else y :: insertPage x ys

/-- Python `pages.update(range(start, start + count))`. -/
def addRange (start : ℕ) : ℕ → List ℕ → List ℕ
  | 0, pages => pages
  | k + 1, pages => addRange (start + 1) k (insertPage start pages)

/-- The two `ValueError` messages raised by `parse_page_ranges`, each
naming the offending token. -/
inductive ParseErr where
  | invalidRange (tok : List Char)
  | invalidPage (tok : List Char)
deriving DecidableEq

/-- One iteration of the token loop of `parse_page_ranges`: a token with
a dash must split into exactly two convertible endpoints satisfying
`1 <= start <= end <= total`, any failure raising the range error; a
plain token must convert and satisfy `1 <= p <= total`. -/
def applyToken (total : ℕ) (part : List Char) (pages : List ℕ) :
    Except ParseErr (List ℕ) :=
  if '-' ∈ part then
    match splitOnChar '-' part with
    | [a, b] =>
      match pyInt? a, pyInt? b with
      | some s, some e =>
        if 1 ≤ s ∧ s ≤ e ∧ e ≤ (total : Int) then
          .ok (addRange s.toNat (e.toNat + 1 - s.toNat) pages)
        else .error (.invalidRange part)
      | _, _ => .error (.invalidRange part)
    | _ => .error (.invalidRange part)
  else
    match pyInt? part with
    | some p =>
      if 1 ≤ p ∧ p ≤ (total : Int) then .ok (insertPage p.toNat pages)
      else .error (.invalidPage part)
    | none => .error (.invalidPage part)

/-- The token loop: fold the tokens into the selection, aborting with
the first bad token's error (no partial result escapes). -/
def parseParts (total : ℕ) : List (List Char) → List ℕ → Except ParseErr (List ℕ)
  | [], pages => .ok pages
  | part :: parts, pages =>
    match applyToken total part pages with
    | .ok pages2 => parseParts total parts pages2
    | .error e => .error e

/-- Python `range_str.replace(" ", "").split(",")`. -/
def cleanedParts (s : List Char) : List (List Char) :=
  splitOnChar ',' (s.filter (fun c => c ≠ ' '))

/-- `parse_page_ranges(range_str, total_pages)` of the source: input that
is empty after stripping yields the empty selection; otherwise the
comma-separated tokens are processed in order.  The final Python
`sorted(pages)` is the sorted list maintained by `insertPage`. -/
def parse_page_ranges (rangeStr : List Char) (total : ℕ) :
    Except ParseErr (List ℕ) :=
  if pyStrip rangeStr = [] then .ok []
  else parseParts total (cleanedParts rangeStr) []

/-- Grammar well-formedness of one token, following the specification:
an integer `N` with `1 <= N <= total`, or a range `A-B` with
`1 <= A <= B <= total`, where integers are decimal digit strings. -/
def wellFormedTok (total : ℕ) (p : List Char) : Bool :=
  match splitOnChar '-' p with
  | [a] => isIntTok a && decide (1 ≤ tokVal a) && decide (tokVal a ≤ total)
  | [a, b] =>
    isIntTok a && isIntTok b && decide (1 ≤ tokVal a) &&
      decide (tokVal a ≤ tokVal b) && decide (tokVal b ≤ total)
  | _ => false

/-- The set of pages a token denotes: a single page for `N`, the closed
interval for `A-B`. -/
def tokDenotes (p : List Char) (v : ℕ) : Prop :=
  match splitOnChar '-' p with
  | [a] => v = tokVal a
  | [a, b] => tokVal a ≤ v ∧ v ≤ tokVal b
  | _ => False

/-- True when the token aborts the parse (the branch taken does not
depend on the accumulated selection). -/
def tokErrs (total : ℕ) (p : List Char) : Bool :=
  match applyToken total p [] with
  | .error _ => true
  | .ok _ => false

/-- The in-memory document: the page sequence of `self.reader` together
with `self.current_page_index`.  Pages are opaque handles. -/
structure DocState (α : Type) where
  pages : List α
  cursor : ℕ
deriving DecidableEq

/-- Python `list.pop(i)`: the removed element and the remainder, `none`
when `i` is out of bounds (Python raises `IndexError`; the UI callers
modelled below stay in bounds).  Negative indices never occur here. -/
def pyPop? {α : Type} : ℕ → List α → Option (α × List α)
  | _, [] => none
  | 0, y :: ys => some (y, ys)
  | i + 1, y :: ys => (pyPop? i ys).map (fun r => (r.1, y :: r.2))

/-- Python `list.insert(i, x)` for a nonnegative index: clamps to the
end when `i` exceeds the length. -/
def pyInsert {α : Type} : ℕ → α → List α → List α
  | 0, x, l => x :: l
  | _ + 1, x, [] => [x]
  | i + 1, x, y :: ys => y :: pyInsert i x ys

/-- `move_page(from_index, to_index)`: no-op when the indices coincide;
otherwise pop the page, reinsert it, and recompute the cursor exactly as
the source does (the reload inside the source first resets the index to
0 and `new_current` is then assigned over it, so only `new_current`
survives).  Snapshot push and file I/O are handled at `AppState` level. -/
def movePage {α : Type} (s : DocState α) (fromIdx toIdx : ℕ) : DocState α :=
  if fromIdx = toIdx then s
  else
    match pyPop? fromIdx s.pages with
    | none => s
    | some (page, rest) =>
      { pages := pyInsert toIdx page rest
        cursor :=
          if s.cursor = fromIdx then toIdx
          else if fromIdx < s.cursor ∧ s.cursor ≤ toIdx then s.cursor - 1
          else if toIdx ≤ s.cursor ∧ s.cursor < fromIdx then s.cursor + 1
          else s.cursor }

/-- `move_current_up`: one step up when not already first. -/
def move_current_up {α : Type} (s : DocState α) : DocState α :=
  if 0 < s.cursor then movePage s s.cursor (s.cursor - 1) else s

/-- `move_current_down`: one step down when not already last. -/
def move_current_down {α : Type} (s : DocState α) : DocState α :=
  if s.cursor + 1 < s.pages.length then movePage s s.cursor (s.cursor + 1) else s

/-- `move_current_up_multi` with the dialog answer `n`: guarded by
`current <= 0` and by the dialog bounds `1..current`; pops the current
page, reinserts it `n` earlier and sets the cursor to the landing index
(`_write_and_reload(pages, end)`). -/
def move_current_up_multi {α : Type} (s : DocState α) (n : ℕ) : DocState α :=
  if s.cursor = 0 then s
  else if 1 ≤ n ∧ n ≤ s.cursor then
    match pyPop? s.cursor s.pages with
    | none => s
    | some (page, rest) =>
      { pages := pyInsert (s.cursor - n) page rest, cursor := s.cursor - n }
  else s

/-- `move_current_down_multi` with the dialog answer `n`: guarded by
`current >= total - 1` and by the dialog bounds `1..total - 1 - current`. -/
def move_current_down_multi {α : Type} (s : DocState α) (n : ℕ) : DocState α :=
  if s.pages.length ≤ s.cursor + 1 then s
  else if 1 ≤ n ∧ n ≤ s.pages.length - 1 - s.cursor then
    match pyPop? s.cursor s.pages with
    | none => s
    | some (page, rest) =>
      { pages := pyInsert (s.cursor + n) page rest, cursor := s.cursor + n }
  else s

/-- The writer loop of `delete_current_page`: keep page `i` unless
`i == current`, counting from `i`. -/
def writerSkipAux {α : Type} (cur : ℕ) : ℕ → List α → List α
  | _, [] => []
  | i, x :: xs =>
    if i = cur then writerSkipAux cur (i + 1) xs
    else x :: writerSkipAux cur (i + 1) xs

/-- Pages written by `delete_current_page`. -/
def writerSkip {α : Type} (cur : ℕ) (l : List α) : List α :=
  writerSkipAux cur 0 l

/-- `delete_current_page`: refused when at most one page is loaded;
otherwise the page at the cursor is dropped and the document reloaded.
The reload (`load_pdf` with `is_undo=False`) resets
`current_page_index` to 0. -/
def delete_current_page {α : Type} (s : DocState α) : DocState α :=
  if s.pages.length ≤ 1 then s
  else { pages := writerSkip s.cursor s.pages, cursor := 0 }

/-- The writer loop of `delete_current_pages_multi`: keep page `i` when
`i < current` or `i >= current + n`. -/
def keepOutsideAux {α : Type} (cur n : ℕ) : ℕ → List α → List α
  | _, [] => []
  | i, x :: xs =>
    if i < cur ∨ cur + n ≤ i then x :: keepOutsideAux cur n (i + 1) xs
    else keepOutsideAux cur n (i + 1) xs

/-- Pages written by `delete_current_pages_multi`. -/
def keepOutside {α : Type} (cur n : ℕ) (l : List α) : List α :=
  keepOutsideAux cur n 0 l

/-- `delete_current_pages_multi` with the dialog answer `n`: guarded by
`total <= 1` and the dialog bounds `1..total - current`.  Returns the
resulting display state and, when the operation ran, the document that
was written (`some kept`).  When every page is removed the written
document has zero pages and the reload refuses it, leaving the display
state unchanged (the zero-page branch of `load_pdf`). -/
def delete_current_pages_multi {α : Type} (s : DocState α) (n : ℕ) :
    DocState α × Option (List α) :=
  if s.pages.length ≤ 1 then (s, none)
  else if 1 ≤ n ∧ n ≤ s.pages.length - s.cursor then
    if (keepOutside s.cursor n s.pages).length = 0 then
      (s, some (keepOutside s.cursor n s.pages))
    else ({ pages := keepOutside s.cursor n s.pages, cursor := 0 },
      some (keepOutside s.cursor n s.pages))
  else (s, none)

/-- `add_blank_after_current`: insert one blank at `current + 1`, then
the cursor is set to that position.  The no-document guard
(`if not self.reader`) lives outside this document-level model. -/
def add_blank_after_current {α : Type} (blank : α) (s : DocState α) : DocState α :=
  { pages := pyInsert (s.cursor + 1) blank s.pages, cursor := s.cursor + 1 }

/-- The insertion loop of `add_blank_pages_multi`:
`for i in range(n): pages.insert(pos + i, blank_page)`. -/
def insertLoop {α : Type} (blank : α) : ℕ → ℕ → List α → List α
  | _, 0, l => l
  | pos, k + 1, l => insertLoop blank (pos + 1) k (pyInsert pos blank l)

/-- `add_blank_pages_multi` with the dialog answer `n` (dialog bounds
`1..50`): insert `n` blanks starting at `current + 1` and set the
cursor to `pos + n - 1`, the last inserted index. -/
def add_blank_pages_multi {α : Type} (blank : α) (s : DocState α) (n : ℕ) :
    DocState α :=
  if 1 ≤ n ∧ n ≤ 50 then
    { pages := insertLoop blank (s.cursor + 1) n s.pages
      cursor := s.cursor + 1 + n - 1 }
  else s

/-- `self.MAX_UNDO` of the source. -/
def MAX_UNDO : ℕ := 5

/-- The stack update of `_push_undo_state`: append the snapshot, then
pop the oldest entry (index 0, whose backing file is also removed) when
the bound is exceeded. -/
def pushSnap {σ : Type} (stack : List σ) (x : σ) : List σ :=
  let s2 := stack ++ [x]
  if MAX_UNDO < s2.length then s2.drop 1 else s2

/-- Application-level state: `current_pdf_path` together with the pages
it holds (`none` when no document is open), `current_page_index`, and
`undo_stack` as (document snapshot, cursor) pairs. -/
structure AppState (π : Type) where
  currentPath : Option (List π)
  cursor : ℕ
  undoStack : List (List π × ℕ)
deriving DecidableEq

/-- `load_pdf(path, ...)`: a zero-page document is refused with a
warning and the current path, thumbnails and cursor stay as they were;
otherwise the document becomes current and the cursor is reset to 0
unless this load is an undo restore. -/
def load_pdf {π : Type} (s : AppState π) (doc : List π) (isUndo : Bool) :
    AppState π :=
  if doc.length = 0 then s
  else { currentPath := some doc
         cursor := if isUndo then s.cursor else 0
         undoStack := s.undoStack }

/-- `_push_undo_state`: nothing is pushed when no document is open;
otherwise a copy of the *current* file and cursor is appended via the
bounded push. -/
def push_undo_state {π : Type} (s : AppState π) : AppState π :=
  match s.currentPath with
  | none => s
  | some doc => { s with undoStack := pushSnap s.undoStack (doc, s.cursor) }

/-- `process_pdf_files(files)`: a single file is loaded directly; for
several files all pages are concatenated in order into one merged
document, which is loaded, and only then is `_push_undo_state()`
called - on the state in which the merged document is already current. -/
def process_pdf_files {π : Type} (s : AppState π) (files : List (List π)) :
    AppState π :=
  match files with
  | [f] => load_pdf s f false
  | _ => push_undo_state (load_pdf s files.flatten false)

/-- Events reaching one ambiguous control: a released single click (the
`clicked` signal feeding `schedule_single_click`), a double-click event
(caught by `eventFilter`), and the expiry of an armed timer. -/
inductive GEvent where
  | click
  | dblclick
  | timeout
deriving DecidableEq

/-- Per-control debounce state: the armed single-shot timer together
with the remembered single action, when one is pending. -/
structure ClickState (A : Type) where
  pending : Option A
deriving DecidableEq

/-- One event step, straight from the source: `schedule_single_click`
stops any pending timer and arms a fresh one remembering the single
action; the double-click branch of `eventFilter` stops and discards the
pending timer and runs the multi action; a timer that expires runs the
remembered single action.  A stopped timer never times out, so
`timeout` with nothing pending does nothing. -/
def stepClick {A : Type} (single multi : A) (s : ClickState A) :
    GEvent → ClickState A × List A
  | .click => (⟨some single⟩, [])
  | .dblclick => (⟨none⟩, [multi])
  | .timeout =>
    match s.pending with
    | some f => (⟨none⟩, [f])
    | none => (s, [])

/-- Run a sequence of events, collecting the executed actions in order. -/
def runClicks {A : Type} (single multi : A) (s : ClickState A) :
    List GEvent → ClickState A × List A
  | [] => (s, [])
  | e :: es =>
    let r := stepClick single multi s e
    let r2 := runClicks single multi r.1 es
    (r2.1, r.2 ++ r2.2)


/-! ### Snapshot history (claim C5) -/

lemma pushSnap_length_le {σ : Type} (stack : List σ) (x : σ)
    (h : stack.length ≤ MAX_UNDO) : (pushSnap stack x).length ≤ MAX_UNDO := by
  simp only [pushSnap]
  split
  · simp only [List.length_drop, List.length_append, List.length_singleton]
    simp only [MAX_UNDO] at *
    omega
  · rename_i h2
    simp only [List.length_append, List.length_singleton] at h2 ⊢
    omega

lemma foldl_pushSnap_drop {σ : Type} (xs : List σ) :
    ∀ stack : List σ, stack.length ≤ MAX_UNDO →
      xs.foldl pushSnap stack = (stack ++ xs).drop ((stack ++ xs).length - MAX_UNDO) := by
  induction xs with
  | nil =>
    intro stack h
    have h0 : stack.length - MAX_UNDO = 0 := by omega
    simp [h0]
  | cons x xs ih =>
    intro stack h
    rw [List.foldl_cons, ih _ (pushSnap_length_le _ _ h)]
    by_cases hl : MAX_UNDO < stack.length + 1
    · have h5 : stack.length = MAX_UNDO := by omega
      have hpush : pushSnap stack x = (stack ++ [x]).drop 1 := by
        simp only [pushSnap]
        rw [if_pos (by simp [List.length_append]; omega)]
      rw [hpush]
      have hd1 : (stack ++ [x]).drop 1 ++ xs = ((stack ++ [x]) ++ xs).drop 1 := by
        conv_rhs =>
          rw [List.drop_append_of_le_length
            (show 1 ≤ (stack ++ [x]).length by simp [List.length_append])]
      rw [hd1, List.drop_drop]
      have ha : (stack ++ [x]) ++ xs = stack ++ x :: xs := by
        simp [List.append_assoc]
      rw [ha]
      congr 1
      simp only [List.length_drop, List.length_append, List.length_singleton,
        List.length_cons, MAX_UNDO] at *
      omega
    · have hpush : pushSnap stack x = stack ++ [x] := by
        simp only [pushSnap]
        rw [if_neg (by simp [List.length_append]; omega)]
      rw [hpush]
      have ha : (stack ++ [x]) ++ xs = stack ++ x :: xs := by
        simp [List.append_assoc]
      rw [ha]

/-- C5: however many snapshots are pushed, the history stays bounded at
`MAX_UNDO = 5`; pushing from an empty history retains exactly the most
recent five snapshots, in order; each push appends at the end, and the
oldest entry is evicted from the front only when the appended stack
exceeds the bound. -/
theorem undo_stack_bounded (σ : Type) (xs : List σ) :
    (xs.foldl pushSnap []).length ≤ MAX_UNDO ∧
    xs.foldl pushSnap [] = xs.drop (xs.length - MAX_UNDO) ∧
    (∀ (stack : List σ) (x : σ), stack.length ≤ MAX_UNDO →
      (stack.length < MAX_UNDO → pushSnap stack x = stack ++ [x]) ∧
      (stack.length = MAX_UNDO → pushSnap stack x = (stack ++ [x]).drop 1)) := by
  have hmain := foldl_pushSnap_drop xs ([] : List σ) (by simp)
  simp only [List.nil_append] at hmain
  refine ⟨?_, hmain, ?_⟩
  · rw [hmain]
    simp only [List.length_drop]
    omega
  · intro stack x h
    constructor
    · intro hlt
      simp only [pushSnap]
      rw [if_neg (by simp [List.length_append]; omega)]
    · intro heq
      simp only [pushSnap]
      rw [if_pos (by simp [List.length_append]; omega)]

/-- C5 witness: a concrete run of seven pushes keeps the last five, and
a push onto a full history appends then evicts the oldest entry. -/
theorem undo_stack_bounded_witness :
    (List.foldl pushSnap ([] : List ℕ) [1, 2, 3, 4, 5, 6, 7] =
      [1, 2, 3, 4, 5, 6, 7].drop ([1, 2, 3, 4, 5, 6, 7].length - MAX_UNDO)) ∧
    ([1, 2, 3, 4, 5] : List ℕ).length ≤ MAX_UNDO ∧
    pushSnap ([1, 2, 3, 4, 5] : List ℕ) 6 = ([1, 2, 3, 4, 5] ++ [6]).drop 1 :=
  ⟨(undo_stack_bounded ℕ [1, 2, 3, 4, 5, 6, 7]).2.1, by decide,
    ((undo_stack_bounded ℕ []).2.2 [1, 2, 3, 4, 5] 6 (by decide)).2 (by decide)⟩

/-! ### Click-intent debounce (claim C7) -/

/-- C7: per gesture on an ambiguous control, at most one action runs.
A click followed by a double-click (the second click arriving inside
the delay window, before the timer expires) runs the multi action
exactly once and the remembered single action never; a click whose
timer expires with no second click runs the single action exactly once;
a re-click before expiry coalesces into the pending state rather than
queueing a second single action; and once the double-click has
cancelled the timer, a later expiry event runs nothing. -/
theorem click_intent_single_or_multi (A : Type) (single multi : A) :
    runClicks single multi ⟨none⟩ [.click, .dblclick] = (⟨none⟩, [multi]) ∧
    runClicks single multi ⟨none⟩ [.click, .timeout] = (⟨none⟩, [single]) ∧
    runClicks single multi ⟨none⟩ [.click, .click, .dblclick] = (⟨none⟩, [multi]) ∧
    runClicks single multi ⟨none⟩ [.click, .dblclick, .timeout] = (⟨none⟩, [multi]) ∧
    (∀ s : ClickState A, runClicks single multi s [.dblclick] = (⟨none⟩, [multi])) :=
  ⟨rfl, rfl, rfl, rfl, fun _ => rfl⟩

/-! ### Merging multiple files at load time (claims C6) -/

/-- C6 counterexample: with no document open, opening two files runs the
merge path and still pushes an undo snapshot - of the freshly merged
document - even though the claim says a fresh load pushes no undo step. -/
theorem merge_push_without_open_doc :
    (⟨none, 0, []⟩ : AppState ℕ).currentPath = none ∧
    (process_pdf_files (⟨none, 0, []⟩ : AppState ℕ) [[1], [2]]).undoStack = [([1, 2], 0)] ∧
    (process_pdf_files (⟨none, 0, []⟩ : AppState ℕ) [[1], [2]]).undoStack ≠ [] := by
  refine ⟨rfl, rfl, by decide⟩

/-- C6 amended: opening several files concatenates all their pages in
order into one merged document, which becomes current with cursor 0;
then one undo snapshot is pushed, but it records the already-merged new
state (current file and cursor after the load), not the pre-merge
state, and it is pushed whether or not a document was open before. -/
theorem merge_pushes_merged_state (π : Type) (s : AppState π)
    (f1 f2 : List π) (rest : List (List π))
    (hne : (f1 :: f2 :: rest).flatten ≠ []) :
    process_pdf_files s (f1 :: f2 :: rest) =
      { currentPath := some ((f1 :: f2 :: rest).flatten)
        cursor := 0
        undoStack := pushSnap s.undoStack ((f1 :: f2 :: rest).flatten, 0) } := by
  have hlen : ¬ ((f1 :: f2 :: rest).flatten).length = 0 := fun h =>
    hne (List.length_eq_zero.mp h)
  have hstep : process_pdf_files s (f1 :: f2 :: rest) =
      push_undo_state (load_pdf s ((f1 :: f2 :: rest).flatten) false) := rfl
  rw [hstep]
  unfold load_pdf
  rw [if_neg hlen]
  rfl

/-- C6 witness: a concrete merge onto an open one-page document pushes
the merged state, not the pre-merge page list. -/
theorem merge_pushes_merged_state_witness :
    (([[1], [2]] : List (List ℕ)).flatten ≠ []) ∧
    process_pdf_files (⟨some [7], 0, []⟩ : AppState ℕ) [[1], [2]] =
      { currentPath := some ([[1], [2]] : List (List ℕ)).flatten
        cursor := 0
        undoStack := pushSnap [] (([[1], [2]] : List (List ℕ)).flatten, 0) } :=
  ⟨by decide, merge_pushes_merged_state ℕ ⟨some [7], 0, []⟩ [1] [2] [] (by decide)⟩

/-! ### Batch delete can empty the document (claim C10) -/

lemma keepOutsideAux_zero_nil {α : Type} (n : ℕ) :
    ∀ (l : List α) (i : ℕ), i + l.length ≤ n → keepOutsideAux 0 n i l = [] := by
  intro l
  induction l with
  | nil => intro i _; rfl
  | cons x xs ih =>
    intro i h
    simp only [List.length_cons] at h
    simp only [keepOutsideAux]
    rw [if_neg (by omega)]
    exact ih (i + 1) (by omega)

/-- C10: the batch delete's only preconditions are `total > 1` and the
dialog bounds `1 <= count <= total - start`; with the cursor at 0 every
count up to the full page count is accepted, and deleting all pages
writes a document with zero pages - the at-least-one-page guarantee of
the single delete is not enforced by the batch form. -/
theorem delete_multi_allows_full_wipe (α : Type) (s : DocState α)
    (h2 : 2 ≤ s.pages.length) (hc : s.cursor = 0) :
    (∀ n, 1 ≤ n → n ≤ s.pages.length →
      ((delete_current_pages_multi s n).2).isSome = true) ∧
    (delete_current_pages_multi s s.pages.length).2 = some [] := by
  constructor
  · intro n h1 hn
    unfold delete_current_pages_multi
    rw [if_neg (by omega), if_pos ⟨h1, by omega⟩]
    split <;> rfl
  · have hkept : keepOutside s.cursor s.pages.length s.pages = [] := by
      rw [hc]
      exact keepOutsideAux_zero_nil s.pages.length s.pages 0 (by omega)
    unfold delete_current_pages_multi
    rw [if_neg (by omega), if_pos ⟨by omega, by omega⟩, hkept]
    simp

/-- C10 witness: a three-page document with the cursor at 0 accepts a
batch delete of all three pages and the written result is empty. -/
theorem delete_multi_allows_full_wipe_witness :
    (2 ≤ ([0, 1, 2] : List ℕ).length) ∧
    (delete_current_pages_multi (⟨[0, 1, 2], 0⟩ : DocState ℕ)
      (⟨[0, 1, 2], 0⟩ : DocState ℕ).pages.length).2 = some [] :=
  ⟨by decide, (delete_multi_allows_full_wipe ℕ ⟨[0, 1, 2], 0⟩ (by decide) rfl).2⟩

/-! ### Single-page delete resets the cursor (claim C2) -/

lemma writerSkipAux_high {α : Type} (cur : ℕ) :
    ∀ (l : List α) (i : ℕ), cur < i → writerSkipAux cur i l = l := by
  intro l
  induction l with
  | nil => intro i _; rfl
  | cons x xs ih =>
    intro i h
    simp only [writerSkipAux]
    rw [if_neg (by omega)]
    rw [ih (i + 1) (by omega)]

lemma writerSkipAux_eraseIdx {α : Type} (cur : ℕ) :
    ∀ (l : List α) (i : ℕ), i ≤ cur → writerSkipAux cur i l = l.eraseIdx (cur - i) := by
  intro l
  induction l with
  | nil => intro i _; rfl
  | cons x xs ih =>
    intro i h
    by_cases hic : i = cur
    · simp only [writerSkipAux]
      rw [if_pos hic, writerSkipAux_high cur xs (i + 1) (by omega)]
      have : cur - i = 0 := by omega
      rw [this]
      rfl
    · simp only [writerSkipAux]
      rw [if_neg hic, ih (i + 1) (by omega)]
      have : cur - i = (cur - (i + 1)) + 1 := by omega
      rw [this]
      rfl

lemma writerSkip_eq_eraseIdx {α : Type} (cur : ℕ) (l : List α) :
    writerSkip cur l = l.eraseIdx cur := by
  have := writerSkipAux_eraseIdx cur l 0 (Nat.zero_le cur)
  simpa [writerSkip] using this

/-- C2 counterexample: on the four-page document `[0,1,2,3]` with the
cursor at 2, deleting the current page yields cursor 0, not the claimed
clamp `min 2 (newLen - 1) = 2`. -/
theorem delete_cursor_not_clamped :
    (delete_current_page (⟨[0, 1, 2, 3], 2⟩ : DocState ℕ)).pages = [0, 1, 3] ∧
    (delete_current_page (⟨[0, 1, 2, 3], 2⟩ : DocState ℕ)).cursor = 0 ∧
    (delete_current_page (⟨[0, 1, 2, 3], 2⟩ : DocState ℕ)).cursor ≠
      min 2 ((delete_current_page (⟨[0, 1, 2, 3], 2⟩ : DocState ℕ)).pages.length - 1) := by
  refine ⟨rfl, rfl, by decide⟩

/-- C2 amended: on a document with at least two pages, the single
delete removes exactly the page at the cursor (one page shorter, others
in order), but the reload then resets the cursor to 0 regardless of the
old position - no clamping of the old cursor takes place (the two agree
only when the old cursor was 0). -/
theorem delete_resets_cursor (α : Type) (s : DocState α)
    (h2 : 2 ≤ s.pages.length) (hc : s.cursor < s.pages.length) :
    (delete_current_page s).pages = s.pages.eraseIdx s.cursor ∧
    (delete_current_page s).pages.length = s.pages.length - 1 ∧
    (delete_current_page s).cursor = 0 := by
  unfold delete_current_page
  rw [if_neg (by omega)]
  refine ⟨writerSkip_eq_eraseIdx s.cursor s.pages, ?_, rfl⟩
  rw [writerSkip_eq_eraseIdx s.cursor s.pages]
  rw [List.length_eraseIdx]
  simp [hc]

/-- C2 witness: the amended behaviour on the concrete document
`[0,1,2,3]` with cursor 2. -/
theorem delete_resets_cursor_witness :
    (2 ≤ ([0, 1, 2, 3] : List ℕ).length) ∧ (2 < ([0, 1, 2, 3] : List ℕ).length) ∧
    ((delete_current_page (⟨[0, 1, 2, 3], 2⟩ : DocState ℕ)).pages =
        ([0, 1, 2, 3] : List ℕ).eraseIdx 2 ∧
      (delete_current_page (⟨[0, 1, 2, 3], 2⟩ : DocState ℕ)).pages.length =
        ([0, 1, 2, 3] : List ℕ).length - 1 ∧
      (delete_current_page (⟨[0, 1, 2, 3], 2⟩ : DocState ℕ)).cursor = 0) :=
  ⟨by decide, by decide, delete_resets_cursor ℕ ⟨[0, 1, 2, 3], 2⟩ (by decide) (by decide)⟩

/-! ### Blank-page insertion (claim C9) -/

lemma pyInsert_append {α : Type} (x : α) :
    ∀ (A B : List α), pyInsert A.length x (A ++ B) = A ++ x :: B := by
  intro A
  induction A with
  | nil => intro B; rfl
  | cons a A ih =>
    intro B
    show a :: pyInsert A.length x (A ++ B) = a :: (A ++ x :: B)
    rw [ih B]

lemma insertLoop_append {α : Type} (blank : α) :
    ∀ (n : ℕ) (A B : List α),
      insertLoop blank A.length n (A ++ B) = A ++ List.replicate n blank ++ B := by
  intro n
  induction n with
  | zero => intro A B; simp [insertLoop]
  | succ k ih =>
    intro A B
    simp only [insertLoop]
    rw [pyInsert_append blank A B]
    have h1 : A ++ blank :: B = (A ++ [blank]) ++ B := by simp
    have h2 : A.length + 1 = (A ++ [blank]).length := by simp
    rw [h1, h2, ih (A ++ [blank]) B]
    simp [List.replicate_succ, List.append_assoc]

/-- C9: on an open document with a valid cursor `c`, the single insert
places one blank immediately after index `c` and moves the cursor to
`c + 1`; the batch insert with a dialog answer `n` (dialog bounds
`1..50`) places `n` blanks immediately after index `c`, keeping every
pre-existing page in relative order, and moves the cursor to `c + n`,
the index of the last inserted blank. -/
theorem insert_blank_after_cursor (α : Type) (blank : α) (s : DocState α)
    (n : ℕ) (hc : s.cursor < s.pages.length) (h1 : 1 ≤ n) (h50 : n ≤ 50) :
    add_blank_after_current blank s =
      { pages := s.pages.take (s.cursor + 1) ++ blank :: s.pages.drop (s.cursor + 1)
        cursor := s.cursor + 1 } ∧
    add_blank_pages_multi blank s n =
      { pages := s.pages.take (s.cursor + 1) ++
          (List.replicate n blank ++ s.pages.drop (s.cursor + 1))
        cursor := s.cursor + n } := by
  have hlen : (s.pages.take (s.cursor + 1)).length = s.cursor + 1 := by
    rw [List.length_take]
    omega
  have hsplit : s.pages.take (s.cursor + 1) ++ s.pages.drop (s.cursor + 1) = s.pages :=
    List.take_append_drop (s.cursor + 1) s.pages
  have hkey : pyInsert (s.cursor + 1) blank s.pages =
      s.pages.take (s.cursor + 1) ++ blank :: s.pages.drop (s.cursor + 1) := by
    calc pyInsert (s.cursor + 1) blank s.pages
        = pyInsert (s.pages.take (s.cursor + 1)).length blank
            (s.pages.take (s.cursor + 1) ++ s.pages.drop (s.cursor + 1)) := by
          rw [hlen, hsplit]
      _ = s.pages.take (s.cursor + 1) ++ blank :: s.pages.drop (s.cursor + 1) :=
          pyInsert_append blank _ _
  have hkeyLoop : insertLoop blank (s.cursor + 1) n s.pages =
      s.pages.take (s.cursor + 1) ++ List.replicate n blank ++ s.pages.drop (s.cursor + 1) := by
    calc insertLoop blank (s.cursor + 1) n s.pages
        = insertLoop blank (s.pages.take (s.cursor + 1)).length n
            (s.pages.take (s.cursor + 1) ++ s.pages.drop (s.cursor + 1)) := by
          rw [hlen, hsplit]
      _ = s.pages.take (s.cursor + 1) ++ List.replicate n blank ++
            s.pages.drop (s.cursor + 1) := insertLoop_append blank n _ _
  constructor
  · unfold add_blank_after_current
    rw [hkey]
  · unfold add_blank_pages_multi
    rw [if_pos ⟨h1, h50⟩, hkeyLoop]
    simp only [DocState.mk.injEq]
    refine ⟨by simp [List.append_assoc], by omega⟩

/-- C9 witness: inserting two blanks after cursor 1 of a three-page
document puts them at indices 2 and 3 and moves the cursor to 3. -/
theorem insert_blank_after_cursor_witness :
    (1 < ([0, 1, 2] : List ℕ).length) ∧
    (add_blank_after_current 9 (⟨[0, 1, 2], 1⟩ : DocState ℕ) =
        { pages := ([0, 1, 2] : List ℕ).take 2 ++ 9 :: ([0, 1, 2] : List ℕ).drop 2
          cursor := 2 } ∧
      add_blank_pages_multi 9 (⟨[0, 1, 2], 1⟩ : DocState ℕ) 2 =
        { pages := ([0, 1, 2] : List ℕ).take 2 ++
            (List.replicate 2 9 ++ ([0, 1, 2] : List ℕ).drop 2)
          cursor := 3 }) :=
  ⟨by decide, insert_blank_after_cursor ℕ 9 ⟨[0, 1, 2], 1⟩ 2 (by decide) (by decide) (by decide)⟩

/-! ### Single-page move (claim C1) -/

lemma pyPop?_of_lt {α : Type} :
    ∀ (l : List α) (i : ℕ), i < l.length →
      ∃ x rest, pyPop? i l = some (x, rest) ∧ rest.length + 1 = l.length ∧
        pyInsert i x rest = l := by
  intro l
  induction l with
  | nil => intro i h; simp at h
  | cons y ys ih =>
    intro i h
    match i with
    | 0 => exact ⟨y, ys, rfl, rfl, rfl⟩
    | j + 1 =>
      obtain ⟨x, rest, hpop, hlen, hins⟩ := ih j (by simpa using h)
      refine ⟨x, y :: rest, ?_, ?_, ?_⟩
      · simp [pyPop?, hpop]
      · simp [hlen]
      · simp only [pyInsert]
        rw [hins]

lemma pyPop?_pyInsert {α : Type} (x : α) :
    ∀ (l : List α) (i : ℕ), i ≤ l.length → pyPop? i (pyInsert i x l) = some (x, l) := by
  intro l
  induction l with
  | nil =>
    intro i h
    have : i = 0 := by simpa using h
    subst this
    rfl
  | cons y ys ih =>
    intro i h
    match i with
    | 0 => rfl
    | j + 1 =>
      simp only [pyInsert, pyPop?]
      rw [ih j (by simpa using h)]
      rfl

lemma pyInsert_length {α : Type} (x : α) :
    ∀ (l : List α) (i : ℕ), (pyInsert i x l).length = l.length + 1 := by
  intro l
  induction l with
  | nil => intro i; cases i <;> rfl
  | cons y ys ih =>
    intro i
    cases i with
    | zero => rfl
    | succ j => simp [pyInsert, ih j]

/-- C1: for valid indices, `move_page(from, to)` is a no-op when
`from = to`; otherwise it relocates the single page at `from` to
position `to` - removing position `to` from the result undoes the move,
giving back exactly the page and remainder that popping `from` from the
original gives - preserving the page count, and the new cursor is `to`
when the old cursor sat on `from`, `cursor - 1` when
`from < cursor <= to`, `cursor + 1` when `to <= cursor < from`, and
unchanged otherwise. -/
theorem move_page_spec (α : Type) (s : DocState α) (fromIdx toIdx : ℕ)
    (hf : fromIdx < s.pages.length) (ht : toIdx < s.pages.length) :
    (fromIdx = toIdx → movePage s fromIdx toIdx = s) ∧
    (fromIdx ≠ toIdx →
      pyPop? toIdx (movePage s fromIdx toIdx).pages = pyPop? fromIdx s.pages ∧
      (movePage s fromIdx toIdx).pages.length = s.pages.length ∧
      (movePage s fromIdx toIdx).cursor =
        (if s.cursor = fromIdx then toIdx
         else if fromIdx < s.cursor ∧ s.cursor ≤ toIdx then s.cursor - 1
         else if toIdx ≤ s.cursor ∧ s.cursor < fromIdx then s.cursor + 1
         else s.cursor)) := by
  constructor
  · intro h
    unfold movePage
    rw [if_pos h]
  · intro h
    obtain ⟨x, rest, hpop, hlen, _⟩ := pyPop?_of_lt s.pages fromIdx hf
    have hmv : movePage s fromIdx toIdx =
        { pages := pyInsert toIdx x rest
          cursor :=
            if s.cursor = fromIdx then toIdx
            else if fromIdx < s.cursor ∧ s.cursor ≤ toIdx then s.cursor - 1
            else if toIdx ≤ s.cursor ∧ s.cursor < fromIdx then s.cursor + 1
            else s.cursor } := by
      unfold movePage
      rw [if_neg h, hpop]
    rw [hmv]
    refine ⟨?_, ?_, rfl⟩
    · rw [hpop]
      exact pyPop?_pyInsert x rest toIdx (by omega)
    · rw [pyInsert_length]
      omega

/-- C1 witness: the scenario of the claim - pages `[A,B,C,D]` with the
cursor at 2, `move(2,0)` gives `[C,A,B,D]` with cursor 0; and a
same-index move is a no-op. -/
theorem move_page_spec_witness :
    (2 < (['A', 'B', 'C', 'D'] : List Char).length) ∧
    movePage (⟨['A', 'B', 'C', 'D'], 2⟩ : DocState Char) 2 0 =
      ⟨['C', 'A', 'B', 'D'], 0⟩ ∧
    movePage (⟨['A', 'B', 'C', 'D'], 2⟩ : DocState Char) 1 1 =
      ⟨['A', 'B', 'C', 'D'], 2⟩ ∧
    pyPop? 0 (movePage (⟨['A', 'B', 'C', 'D'], 2⟩ : DocState Char) 2 0).pages =
      pyPop? 2 ['A', 'B', 'C', 'D'] :=
  ⟨by decide, by decide,
    (move_page_spec Char ⟨['A', 'B', 'C', 'D'], 2⟩ 1 1 (by decide) (by decide)).1 rfl,
    ((move_page_spec Char ⟨['A', 'B', 'C', 'D'], 2⟩ 2 0 (by decide) (by decide)).2
      (by decide)).1⟩

/-! ### Batch move versus iterated single move (claim C8) -/

lemma move_up_step {α : Type} (x : α) (rest : List α) (c : ℕ)
    (h1 : 1 ≤ c) (hc : c ≤ rest.length) :
    move_current_up (⟨pyInsert c x rest, c⟩ : DocState α) =
      ⟨pyInsert (c - 1) x rest, c - 1⟩ := by
  have hpop := pyPop?_pyInsert x rest c hc
  unfold move_current_up movePage
  simp only
  rw [if_pos (by omega : 0 < c), if_neg (by omega : ¬ c = c - 1), hpop]
  simp

lemma move_down_step {α : Type} (x : α) (rest : List α) (c : ℕ)
    (hc : c + 1 ≤ rest.length) :
    move_current_down (⟨pyInsert c x rest, c⟩ : DocState α) =
      ⟨pyInsert (c + 1) x rest, c + 1⟩ := by
  have hpop := pyPop?_pyInsert x rest c (by omega)
  unfold move_current_down movePage
  simp only
  rw [if_pos (by rw [pyInsert_length]; omega), if_neg (by omega : ¬ c = c + 1), hpop]
  simp

lemma move_up_iter {α : Type} (x : α) (rest : List α) :
    ∀ (k c : ℕ), k + 1 ≤ c → c ≤ rest.length →
      move_current_up^[k + 1] (⟨pyInsert c x rest, c⟩ : DocState α) =
        ⟨pyInsert (c - (k + 1)) x rest, c - (k + 1)⟩ := by
  intro k
  induction k with
  | zero =>
    intro c h1 hc
    rw [Function.iterate_one]
    exact move_up_step x rest c h1 hc
  | succ k ih =>
    intro c h1 hc
    rw [Function.iterate_succ_apply', ih c (by omega) hc]
    rw [move_up_step x rest (c - (k + 1)) (by omega) (by omega)]
    have : c - (k + 1) - 1 = c - (k + 1 + 1) := by omega
    rw [this]

lemma move_down_iter {α : Type} (x : α) (rest : List α) :
    ∀ (k c : ℕ), c + (k + 1) ≤ rest.length →
      move_current_down^[k + 1] (⟨pyInsert c x rest, c⟩ : DocState α) =
        ⟨pyInsert (c + (k + 1)) x rest, c + (k + 1)⟩ := by
  intro k
  induction k with
  | zero =>
    intro c hc
    rw [Function.iterate_one]
    exact move_down_step x rest c (by omega)
  | succ k ih =>
    intro c hc
    rw [Function.iterate_succ_apply', ih c (by omega)]
    rw [move_down_step x rest (c + (k + 1)) (by omega)]
    have : c + (k + 1) + 1 = c + (k + 1 + 1) := by omega
    rw [this]

/-- C8: when the dialog answer stays inside the bounds the source
enforces (so the moved page never crosses a sequence edge), the batch
move of the current page across `n` positions produces exactly the same
page sequence and the same final cursor as `n` successive single-step
moves of the current page, in both directions. -/
theorem move_multi_eq_iterated_single (α : Type) (s : DocState α) (n : ℕ)
    (hc : s.cursor < s.pages.length) :
    (1 ≤ n → n ≤ s.cursor →
      move_current_up_multi s n = move_current_up^[n] s) ∧
    (1 ≤ n → n ≤ s.pages.length - 1 - s.cursor →
      move_current_down_multi s n = move_current_down^[n] s) := by
  obtain ⟨x, rest, hpop, hlen, hins⟩ := pyPop?_of_lt s.pages s.cursor hc
  have hs : s = ⟨pyInsert s.cursor x rest, s.cursor⟩ := by
    cases s with
    | mk P C => simp only at hins ⊢; rw [hins]
  constructor
  · intro h1 hn
    obtain ⟨k, rfl⟩ : ∃ k, n = k + 1 := ⟨n - 1, by omega⟩
    have hup : move_current_up_multi s (k + 1) =
        ⟨pyInsert (s.cursor - (k + 1)) x rest, s.cursor - (k + 1)⟩ := by
      unfold move_current_up_multi
      rw [if_neg (by omega : ¬ s.cursor = 0), if_pos ⟨h1, hn⟩, hpop]
    rw [hup]
    conv_rhs => rw [hs]
    exact (move_up_iter x rest k s.cursor hn (by omega)).symm
  · intro h1 hn
    obtain ⟨k, rfl⟩ : ∃ k, n = k + 1 := ⟨n - 1, by omega⟩
    have hdown : move_current_down_multi s (k + 1) =
        ⟨pyInsert (s.cursor + (k + 1)) x rest, s.cursor + (k + 1)⟩ := by
      unfold move_current_down_multi
      rw [if_neg (by omega : ¬ s.pages.length ≤ s.cursor + 1), if_pos ⟨h1, hn⟩, hpop]
    rw [hdown]
    conv_rhs => rw [hs]
    exact (move_down_iter x rest k s.cursor (by omega)).symm

/-- C8 witness: on the four-page document `[0,1,2,3]`, moving two up
from cursor 2 and two down from cursor 1 each agree with iterating the
single-step move twice. -/
theorem move_multi_eq_iterated_single_witness :
    (2 < ([0, 1, 2, 3] : List ℕ).length) ∧
    move_current_up_multi (⟨[0, 1, 2, 3], 2⟩ : DocState ℕ) 2 =
      move_current_up^[2] (⟨[0, 1, 2, 3], 2⟩ : DocState ℕ) ∧
    move_current_down_multi (⟨[0, 1, 2, 3], 1⟩ : DocState ℕ) 2 =
      move_current_down^[2] (⟨[0, 1, 2, 3], 1⟩ : DocState ℕ) :=
  ⟨by decide,
    (move_multi_eq_iterated_single ℕ ⟨[0, 1, 2, 3], 2⟩ 2 (by decide)).1
      (by decide) (by decide),
    (move_multi_eq_iterated_single ℕ ⟨[0, 1, 2, 3], 1⟩ 2 (by decide)).2
      (by decide) (by decide)⟩

/-! ### Page-range language: splitter facts -/

lemma splitOnChar_ne_nil (sep : Char) : ∀ s, splitOnChar sep s ≠ [] := by
  intro s
  induction s with
  | nil => simp [splitOnChar]
  | cons c cs ih =>
    rcases h : splitOnChar sep cs with _ | ⟨p, ps⟩
    · exact absurd h ih
    · simp only [splitOnChar, h]
      split <;> simp

/-- Rejoin the pieces with the separator; inverse of `splitOnChar`. -/
def joinSep (sep : Char) : List (List Char) → List Char
  | [] => []
  | [p] => p
  | p :: ps => p ++ sep :: joinSep sep ps

lemma joinSep_cons_cons (sep : Char) (p q : List Char) (qs : List (List Char)) :
    joinSep sep (p :: q :: qs) = p ++ sep :: joinSep sep (q :: qs) := rfl

lemma joinSep_splitOnChar (sep : Char) : ∀ s, joinSep sep (splitOnChar sep s) = s := by
  intro s
  induction s with
  | nil => rfl
  | cons c cs ih =>
    rcases h : splitOnChar sep cs with _ | ⟨p, ps⟩
    · exact absurd h (splitOnChar_ne_nil sep cs)
    · rw [h] at ih
      simp only [splitOnChar, h]
      by_cases hc : c = sep
      · rw [if_pos hc]
        rw [joinSep_cons_cons]
        subst hc
        simp [ih]
      · rw [if_neg hc]
        cases ps with
        | nil =>
          simp only [joinSep] at ih ⊢
          rw [ih]
        | cons q qs =>
          rw [joinSep_cons_cons] at ih
          rw [joinSep_cons_cons]
          simp only [List.cons_append]
          rw [ih]

lemma splitOnChar_not_mem (sep : Char) :
    ∀ s part, part ∈ splitOnChar sep s → sep ∉ part := by
  intro s
  induction s with
  | nil =>
    intro part h
    simp only [splitOnChar, List.mem_singleton] at h
    subst h
    simp
  | cons c cs ih =>
    intro part h
    rcases hsp : splitOnChar sep cs with _ | ⟨p, ps⟩
    · exact absurd hsp (splitOnChar_ne_nil sep cs)
    · simp only [splitOnChar, hsp] at h
      by_cases hc : c = sep
      · rw [if_pos hc] at h
        rcases List.mem_cons.mp h with rfl | h2
        · simp
        · exact ih part (by rw [hsp]; exact h2)
      · rw [if_neg hc] at h
        rcases List.mem_cons.mp h with rfl | h2
        · intro hmem
          rcases List.mem_cons.mp hmem with heq | hmem2
          · exact hc heq.symm
          · exact ih p (by rw [hsp]; exact List.mem_cons_self p ps) hmem2
        · exact ih part (by rw [hsp]; exact List.mem_cons_of_mem p h2)

lemma split_single {sep : Char} {s a : List Char}
    (h : splitOnChar sep s = [a]) : s = a ∧ sep ∉ a := by
  have h1 := joinSep_splitOnChar sep s
  rw [h] at h1
  exact ⟨h1.symm, splitOnChar_not_mem sep s a (by rw [h]; simp)⟩

lemma split_pair {sep : Char} {s a b : List Char}
    (h : splitOnChar sep s = [a, b]) :
    s = a ++ sep :: b ∧ sep ∉ a ∧ sep ∉ b := by
  have h1 := joinSep_splitOnChar sep s
  rw [h] at h1
  refine ⟨h1.symm, ?_, ?_⟩
  · exact splitOnChar_not_mem sep s a (by rw [h]; simp)
  · exact splitOnChar_not_mem sep s b (by rw [h]; simp)

/-! ### Page-range language: token conversion and the selection -/

lemma isDigit_ne_plus {c : Char} (h : c.isDigit = true) : ¬ c = '+' := by
  intro e
  rw [e] at h
  exact absurd h (by decide)

lemma isDigit_ne_minus {c : Char} (h : c.isDigit = true) : ¬ c = '-' := by
  intro e
  rw [e] at h
  exact absurd h (by decide)

lemma pyInt?_digits {a : List Char} (h : isIntTok a = true) :
    pyInt? a = some ((tokVal a : ℕ) : ℤ) := by
  cases a with
  | nil => simp [isIntTok] at h
  | cons c cs =>
    have hd : c.isDigit = true := by
      simp only [isIntTok, List.isEmpty_cons, Bool.not_false, Bool.true_and,
        List.all_cons, Bool.and_eq_true] at h
      exact h.1
    have hred : pyInt? (c :: cs) =
        (if c = '+' then (digitsVal cs).map Int.ofNat
         else if c = '-' then (digitsVal cs).map (fun n => -(Int.ofNat n))
         else (digitsVal (c :: cs)).map Int.ofNat) := rfl
    rw [hred, if_neg (isDigit_ne_plus hd), if_neg (isDigit_ne_minus hd)]
    unfold digitsVal
    rw [if_pos h]
    rfl

lemma insertPage_mem (x : ℕ) : ∀ (l : List ℕ) (v : ℕ),
    v ∈ insertPage x l ↔ v = x ∨ v ∈ l := by
  intro l
  induction l with
  | nil => intro v; simp [insertPage]
  | cons y ys ih =>
    intro v
    unfold insertPage
    by_cases h1 : x < y
    · rw [if_pos h1]
      simp [List.mem_cons]
    · rw [if_neg h1]
      by_cases h2 : x = y
      · rw [if_pos h2]
        subst h2
        simp only [List.mem_cons]
        tauto
      · rw [if_neg h2]
        simp only [List.mem_cons, ih v]
        tauto

lemma insertPage_sorted (x : ℕ) : ∀ l : List ℕ,
    l.Sorted (· < ·) → (insertPage x l).Sorted (· < ·) := by
  intro l
  induction l with
  | nil => intro _; simp [insertPage]
  | cons y ys ih =>
    intro h
    rw [List.sorted_cons] at h
    obtain ⟨hy, hys⟩ := h
    unfold insertPage
    by_cases h1 : x < y
    · rw [if_pos h1, List.sorted_cons]
      refine ⟨?_, by rw [List.sorted_cons]; exact ⟨hy, hys⟩⟩
      intro b hb
      rcases List.mem_cons.mp hb with rfl | hb2
      · exact h1
      · exact lt_trans h1 (hy b hb2)
    · rw [if_neg h1]
      by_cases h2 : x = y
      · rw [if_pos h2, List.sorted_cons]
        exact ⟨hy, hys⟩
      · rw [if_neg h2, List.sorted_cons]
        refine ⟨?_, ih hys⟩
        intro b hb
        rcases (insertPage_mem x ys b).mp hb with rfl | hb2
        · omega
        · exact hy b hb2

lemma addRange_mem : ∀ (k s : ℕ) (l : List ℕ) (v : ℕ),
    v ∈ addRange s k l ↔ (s ≤ v ∧ v < s + k) ∨ v ∈ l := by
  intro k
  induction k with
  | zero =>
    intro s l v
    simp only [addRange]
    constructor
    · exact fun h => Or.inr h
    · rintro (⟨h1, h2⟩ | h)
      · omega
      · exact h
  | succ k ih =>
    intro s l v
    simp only [addRange]
    rw [ih (s + 1) (insertPage s l) v, insertPage_mem s l v]
    constructor
    · rintro (⟨h1, h2⟩ | rfl | h)
      · exact Or.inl ⟨by omega, by omega⟩
      · exact Or.inl ⟨le_refl v, by omega⟩
      · exact Or.inr h
    · rintro (⟨h1, h2⟩ | h)
      · by_cases hv : v = s
        · exact Or.inr (Or.inl hv)
        · exact Or.inl ⟨by omega, by omega⟩
      · exact Or.inr (Or.inr h)

lemma addRange_sorted : ∀ (k s : ℕ) (l : List ℕ),
    l.Sorted (· < ·) → (addRange s k l).Sorted (· < ·) := by
  intro k
  induction k with
  | zero => intro s l h; exact h
  | succ k ih => intro s l h; exact ih (s + 1) _ (insertPage_sorted s l h)

lemma applyToken_wf {total : ℕ} {p : List Char}
    (h : wellFormedTok total p = true) (pages : List ℕ) :
    ∃ pages2, applyToken total p pages = .ok pages2 ∧
      (∀ v, v ∈ pages2 ↔ tokDenotes p v ∨ v ∈ pages) ∧
      (pages.Sorted (· < ·) → pages2.Sorted (· < ·)) := by
  unfold wellFormedTok at h
  rcases hsp : splitOnChar '-' p with _ | ⟨a, _ | ⟨b, _ | ⟨c3, cs3⟩⟩⟩ <;> rw [hsp] at h
  · simp at h
  · simp only [Bool.and_eq_true, decide_eq_true_eq] at h
    obtain ⟨⟨hInt, h1⟩, h2⟩ := h
    obtain ⟨heq, hnm⟩ := split_single hsp
    subst heq
    have hstep : applyToken total p pages =
        (if 1 ≤ ((tokVal p : ℕ) : ℤ) ∧ ((tokVal p : ℕ) : ℤ) ≤ (total : ℤ) then
          Except.ok (insertPage ((tokVal p : ℕ) : ℤ).toNat pages)
        else Except.error (.invalidPage p)) := by
      unfold applyToken
      rw [if_neg hnm, pyInt?_digits hInt]
    have htn : ((tokVal p : ℕ) : ℤ).toNat = tokVal p := rfl
    rw [htn] at hstep
    rw [hstep, if_pos ⟨by exact_mod_cast h1, by exact_mod_cast h2⟩]
    have hden : ∀ v, tokDenotes p v ↔ v = tokVal p := by
      intro v
      unfold tokDenotes
      rw [hsp]
    refine ⟨insertPage (tokVal p) pages, rfl, ?_, insertPage_sorted (tokVal p) pages⟩
    intro v
    rw [insertPage_mem (tokVal p) pages v, hden v]
  · simp only [Bool.and_eq_true, decide_eq_true_eq] at h
    obtain ⟨⟨⟨⟨hIa, hIb⟩, h1⟩, hab⟩, hb⟩ := h
    obtain ⟨heq, hna, hnb⟩ := split_pair hsp
    have hmem : '-' ∈ p := by rw [heq]; simp
    have hstep : applyToken total p pages =
        (if 1 ≤ ((tokVal a : ℕ) : ℤ) ∧ ((tokVal a : ℕ) : ℤ) ≤ ((tokVal b : ℕ) : ℤ) ∧
            ((tokVal b : ℕ) : ℤ) ≤ (total : ℤ) then
          Except.ok (addRange ((tokVal a : ℕ) : ℤ).toNat
            (((tokVal b : ℕ) : ℤ).toNat + 1 - ((tokVal a : ℕ) : ℤ).toNat) pages)
        else Except.error (.invalidRange p)) := by
      unfold applyToken
      rw [if_pos hmem, hsp]
      show (match pyInt? a, pyInt? b with
          | some s, some e =>
            if 1 ≤ s ∧ s ≤ e ∧ e ≤ (total : ℤ) then
              Except.ok (addRange s.toNat (e.toNat + 1 - s.toNat) pages)
            else Except.error (ParseErr.invalidRange p)
          | _, _ => Except.error (ParseErr.invalidRange p)) = _
      rw [pyInt?_digits hIa, pyInt?_digits hIb]
    have hta : ((tokVal a : ℕ) : ℤ).toNat = tokVal a := rfl
    have htb : ((tokVal b : ℕ) : ℤ).toNat = tokVal b := rfl
    rw [hta, htb] at hstep
    rw [hstep,
      if_pos ⟨by exact_mod_cast h1, by exact_mod_cast hab, by exact_mod_cast hb⟩]
    have hden : ∀ v, tokDenotes p v ↔ tokVal a ≤ v ∧ v ≤ tokVal b := by
      intro v
      unfold tokDenotes
      rw [hsp]
    refine ⟨addRange (tokVal a) (tokVal b + 1 - tokVal a) pages, rfl, ?_,
      addRange_sorted (tokVal b + 1 - tokVal a) (tokVal a) pages⟩
    intro v
    rw [addRange_mem (tokVal b + 1 - tokVal a) (tokVal a) pages v, hden v]
    constructor
    · rintro (⟨u1, u2⟩ | u)
      · exact Or.inl ⟨u1, by omega⟩
      · exact Or.inr u
    · rintro (⟨u1, u2⟩ | u)
      · exact Or.inl ⟨u1, by omega⟩
      · exact Or.inr u
  · simp at h

lemma tokDenotes_bounds {total : ℕ} {p : List Char}
    (h : wellFormedTok total p = true) :
    ∀ v, tokDenotes p v → 1 ≤ v ∧ v ≤ total := by
  unfold wellFormedTok at h
  intro v hd
  unfold tokDenotes at hd
  rcases hsp : splitOnChar '-' p with _ | ⟨a, _ | ⟨b, _ | ⟨c3, cs3⟩⟩⟩ <;>
    rw [hsp] at h hd
  · simp at h
  · simp only [Bool.and_eq_true, decide_eq_true_eq] at h
    obtain ⟨⟨_, h1⟩, h2⟩ := h
    simp only at hd
    omega
  · simp only [Bool.and_eq_true, decide_eq_true_eq] at h
    obtain ⟨⟨⟨⟨_, _⟩, h1⟩, hab⟩, hb⟩ := h
    simp only at hd
    omega
  · simp at h

lemma parseParts_wf {total : ℕ} :
    ∀ (parts : List (List Char)) (acc : List ℕ),
      (∀ p ∈ parts, wellFormedTok total p = true) → acc.Sorted (· < ·) →
      ∃ l, parseParts total parts acc = .ok l ∧ l.Sorted (· < ·) ∧
        (∀ v, v ∈ l ↔ (∃ p ∈ parts, tokDenotes p v) ∨ v ∈ acc) := by
  intro parts
  induction parts with
  | nil =>
    intro acc _ hs
    exact ⟨acc, rfl, hs, by simp⟩
  | cons p ps ih =>
    intro acc h hs
    obtain ⟨acc2, hok, hmem, hsort⟩ := applyToken_wf (h p (List.mem_cons_self p ps)) acc
    obtain ⟨l, hl, hls, hlm⟩ :=
      ih acc2 (fun q hq => h q (List.mem_cons_of_mem p hq)) (hsort hs)
    refine ⟨l, ?_, hls, ?_⟩
    · simp only [parseParts]
      rw [hok]
      exact hl
    · intro v
      rw [hlm v, hmem v]
      constructor
      · rintro (⟨q, hq, hd⟩ | hd | hv)
        · exact Or.inl ⟨q, List.mem_cons_of_mem p hq, hd⟩
        · exact Or.inl ⟨p, List.mem_cons_self p ps, hd⟩
        · exact Or.inr hv
      · rintro (⟨q, hq, hd⟩ | hv)
        · rcases List.mem_cons.mp hq with rfl | hq2
          · exact Or.inr (Or.inl hd)
          · exact Or.inl ⟨q, hq2, hd⟩
        · exact Or.inr (Or.inr hv)

/-- C3: for an expression all of whose tokens are well-formed for the
grammar (a decimal integer `N` with `1 <= N <= total`, or a range `A-B`
with `1 <= A <= B <= total`), the parse succeeds and returns a strictly
ascending sequence of distinct page numbers, all within `[1, total]`,
whose members are exactly the deduplicated union of the pages the
tokens denote. -/
theorem parse_valid_ranges (expr : List Char) (total : ℕ)
    (h0 : pyStrip expr ≠ [])
    (hwf : ∀ p ∈ cleanedParts expr, wellFormedTok total p = true) :
    ∃ l, parse_page_ranges expr total = .ok l ∧
      l.Sorted (· < ·) ∧ l.Nodup ∧
      (∀ v ∈ l, 1 ≤ v ∧ v ≤ total) ∧
      (∀ v, v ∈ l ↔ ∃ p ∈ cleanedParts expr, tokDenotes p v) := by
  obtain ⟨l, hok, hs, hm⟩ := parseParts_wf (cleanedParts expr) [] hwf (by simp)
  refine ⟨l, ?_, hs, hs.nodup, ?_, ?_⟩
  · unfold parse_page_ranges
    rw [if_neg h0]
    exact hok
  · intro v hv
    rcases (hm v).mp hv with ⟨p, hp, hd⟩ | hfalse
    · exact tokDenotes_bounds (hwf p hp) v hd
    · simp at hfalse
  · intro v
    rw [hm v]
    simp

/-- C3 witness: the specification's example `"1-3,5,7-9"` over 10 pages
satisfies the hypotheses and yields exactly `[1,2,3,5,7,8,9]`. -/
theorem parse_valid_ranges_witness :
    (pyStrip ('1' :: '-' :: '3' :: ',' :: '5' :: ',' :: '7' :: '-' :: '9' :: []) ≠ []) ∧
    (∀ p ∈ cleanedParts ('1' :: '-' :: '3' :: ',' :: '5' :: ',' :: '7' :: '-' :: '9' :: []),
      wellFormedTok 10 p = true) ∧
    parse_page_ranges ('1' :: '-' :: '3' :: ',' :: '5' :: ',' :: '7' :: '-' :: '9' :: []) 10 =
      .ok [1, 2, 3, 5, 7, 8, 9] ∧
    (∃ l, parse_page_ranges
        ('1' :: '-' :: '3' :: ',' :: '5' :: ',' :: '7' :: '-' :: '9' :: []) 10 = .ok l ∧
      l.Sorted (· < ·) ∧ l.Nodup ∧
      (∀ v ∈ l, 1 ≤ v ∧ v ≤ 10) ∧
      (∀ v, v ∈ l ↔ ∃ p ∈ cleanedParts
        ('1' :: '-' :: '3' :: ',' :: '5' :: ',' :: '7' :: '-' :: '9' :: []), tokDenotes p v)) :=
  ⟨by decide, by decide, by decide,
    parse_valid_ranges ('1' :: '-' :: '3' :: ',' :: '5' :: ',' :: '7' :: '-' :: '9' :: []) 10
      (by decide) (by decide)⟩

/-! ### Page-range language: error behaviour (claim C4) -/

lemma applyToken_cases (total : ℕ) (p : List Char) (pages : List ℕ) :
    (∃ pages2, applyToken total p pages = .ok pages2) ∨
    applyToken total p pages = .error (.invalidRange p) ∨
    applyToken total p pages = .error (.invalidPage p) := by
  unfold applyToken
  split <;> (try split) <;> (try split) <;> (try split) <;>
    first
      | exact Or.inl ⟨_, rfl⟩
      | exact Or.inr (Or.inl rfl)
      | exact Or.inr (Or.inr rfl)

lemma applyToken_error_iff (total : ℕ) (p : List Char) (pages : List ℕ)
    (e : ParseErr) :
    applyToken total p pages = .error e ↔ applyToken total p [] = .error e := by
  unfold applyToken
  split <;> (try split) <;> (try split) <;> (try split) <;> simp

lemma tokErrs_true_iff (total : ℕ) (p : List Char) :
    tokErrs total p = true ↔ ∃ e, applyToken total p [] = .error e := by
  unfold tokErrs
  cases h : applyToken total p [] with
  | error e => simp
  | ok v => simp

lemma parseParts_error {total : ℕ} :
    ∀ (parts : List (List Char)) (acc : List ℕ),
      (∃ p ∈ parts, tokErrs total p = true) →
      ∃ q ∈ parts, tokErrs total q = true ∧
        (parseParts total parts acc = .error (.invalidRange q) ∨
         parseParts total parts acc = .error (.invalidPage q)) := by
  intro parts
  induction parts with
  | nil =>
    rintro acc ⟨p, hp, _⟩
    exact absurd hp (List.not_mem_nil p)
  | cons p ps ih =>
    intro acc hex
    cases hz : applyToken total p acc with
    | error e =>
      have he : applyToken total p [] = .error e :=
        (applyToken_error_iff total p acc e).mp hz
      have ht : tokErrs total p = true := (tokErrs_true_iff total p).mpr ⟨e, he⟩
      have hshape : e = ParseErr.invalidRange p ∨ e = ParseErr.invalidPage p := by
        rcases applyToken_cases total p acc with ⟨p2, hok⟩ | herr | herr
        · rw [hok] at hz
          exact absurd hz (by simp)
        · have h2 := herr.symm.trans hz
          exact Or.inl (by injection h2 with h3; exact h3.symm)
        · have h2 := herr.symm.trans hz
          exact Or.inr (by injection h2 with h3; exact h3.symm)
      refine ⟨p, List.mem_cons_self p ps, ht, ?_⟩
      have hpp : parseParts total (p :: ps) acc = .error e := by
        simp only [parseParts]
        rw [hz]
      rcases hshape with rfl | rfl
      · exact Or.inl hpp
      · exact Or.inr hpp
    | ok pages2 =>
      have hgood : tokErrs total p ≠ true := by
        intro ht
        obtain ⟨e, he⟩ := (tokErrs_true_iff total p).mp ht
        have h2 := (applyToken_error_iff total p acc e).mpr he
        rw [hz] at h2
        exact absurd h2 (by simp)
      obtain ⟨q, hq, hbad⟩ := hex
      rcases List.mem_cons.mp hq with rfl | hq2
      · exact absurd hbad hgood
      · obtain ⟨q2, hq2b, ht2, hor⟩ := ih pages2 ⟨q, hq2, hbad⟩
        refine ⟨q2, List.mem_cons_of_mem p hq2b, ht2, ?_⟩
        have hred : parseParts total (p :: ps) acc = parseParts total ps pages2 := by
          simp only [parseParts]
          rw [hz]
        rw [hred]
        exact hor

/-- C4 counterexample: the expression `+3` consists of one token that is
malformed for the grammar (`INT` is decimal digits only, and `+3` is
neither an `INT` nor a range), yet Python `int` accepts the sign, so
the source parses it to page 3 instead of raising the claimed
ParseError. -/
theorem parse_accepts_signed_token :
    parse_page_ranges ('+' :: '3' :: []) 10 = .ok [3] ∧
    cleanedParts ('+' :: '3' :: []) = [('+' :: '3' :: [])] ∧
    wellFormedTok 10 ('+' :: '3' :: []) = false := by
  refine ⟨by decide, by decide, by decide⟩

/-- C4 amended: the three concrete failures of the claim hold -
`parse("5-2", 10)`, `parse("0", 10)` and `parse("11", 10)` raise the
error naming the offending token - and `parse("", 10)` yields the empty
result; in general, for a non-blank expression, whenever some token is
rejected by the source's own token check (failed integer conversion,
wrong arity around the dash, reversed range, or out-of-range value -
not the wider grammar-based malformedness of the claim, which the
signed-token counterexample refutes), the whole parse aborts with an
error naming such a rejected token of the expression, and no partial
result is returned. -/
theorem parse_error_cases :
    (parse_page_ranges ('5' :: '-' :: '2' :: []) 10 =
      .error (.invalidRange ('5' :: '-' :: '2' :: []))) ∧
    (parse_page_ranges ('0' :: []) 10 = .error (.invalidPage ('0' :: []))) ∧
    (parse_page_ranges ('1' :: '1' :: []) 10 = .error (.invalidPage ('1' :: '1' :: []))) ∧
    (parse_page_ranges [] 10 = .ok []) ∧
    (∀ (expr : List Char) (total : ℕ), pyStrip expr ≠ [] →
      (∃ p ∈ cleanedParts expr, tokErrs total p = true) →
      ∃ q ∈ cleanedParts expr, tokErrs total q = true ∧
        (parse_page_ranges expr total = .error (.invalidRange q) ∨
         parse_page_ranges expr total = .error (.invalidPage q))) := by
  refine ⟨by decide, by decide, by decide, by decide, ?_⟩
  intro expr total h0 hex
  obtain ⟨q, hq, ht, hor⟩ := parseParts_error (cleanedParts expr) [] hex
  refine ⟨q, hq, ht, ?_⟩
  have hred : parse_page_ranges expr total = parseParts total (cleanedParts expr) [] := by
    unfold parse_page_ranges
    rw [if_neg h0]
  rw [hred]
  exact hor

/-- C4 witness: the general error-propagation part applied to the
concrete reversed range `5-2` over 10 pages. -/
theorem parse_error_cases_witness :
    (pyStrip ('5' :: '-' :: '2' :: []) ≠ []) ∧
    (∃ p ∈ cleanedParts ('5' :: '-' :: '2' :: []), tokErrs 10 p = true) ∧
    (∃ q ∈ cleanedParts ('5' :: '-' :: '2' :: []), tokErrs 10 q = true ∧
      (parse_page_ranges ('5' :: '-' :: '2' :: []) 10 = .error (.invalidRange q) ∨
       parse_page_ranges ('5' :: '-' :: '2' :: []) 10 = .error (.invalidPage q))) :=
  ⟨by decide, by decide,
    parse_error_cases.2.2.2.2 ('5' :: '-' :: '2' :: []) 10 (by decide) (by decide)⟩
